import Mathlib

/-!
# Verification of the o1js matrix-arithmetic engine

This file gives a shallow embedding of the matrix-arithmetic engine
(`src/matrix_ops.ts` together with its `values_len` draft variant and
`quantize.ts`) and proves, or refutes, the frozen claims about it.

Modelling conventions:

* The o1js `Field` type (a large prime field) is embedded as an arbitrary
  `Field F`.  All arithmetic (`add`, `sub`, `mul`, `div`) is field
  arithmetic; `x / 0 = 0` in Lean, while the corresponding o1js division
  would make the constraint system unsatisfiable — every place where a
  divisor can be zero carries its own non-zero assertion, modelled as a
  `Prop` alongside the computed value.
* Matrix `values` arrays are `List F` in row-major order; `shape` entries
  are `Field` elements holding small naturals that the source immediately
  converts with `Number(...)`, so shapes are embedded as `ℕ`.
* JavaScript array reads `a[i]` are embedded as `List.getD i 0`.  All
  reads performed by the source on well-shaped inputs are in bounds, so
  the default is never observable there.
* `Provable.assertEqual` / `assertNotEquals` / `assertEquals` emit
  constraints; an operation that emits constraints is embedded as a pair
  `value × Prop`, the `Prop` being the conjunction of the emitted
  constraints (the constraint set is satisfiable iff the `Prop` holds).
* The witness-and-assert round trip in the constant-index `get_minor`
  (`minor[idx] = Provable.witness(...); assertEqual(minor[idx], matrix[...])`)
  witnesses exactly the value it is asserted equal to, so its constraint
  is identically true and the embedding copies the value directly.
-/

namespace MatrixOps

variable {F : Type*} [Field F]

/-- Element-wise addition of two value arrays (`function add`,
`matrix_ops.ts:205`): loops over the indices of the first array and adds
entries pointwise. -/
def add (matrix1_val matrix2_val : List F) : List F :=
  (List.range matrix1_val.length).map
    (fun i => matrix1_val.getD i 0 + matrix2_val.getD i 0)

/-- Element-wise subtraction (`function sub`, `matrix_ops.ts:220`). -/
def sub (matrix1_val matrix2_val : List F) : List F :=
  (List.range matrix1_val.length).map
    (fun i => matrix1_val.getD i 0 - matrix2_val.getD i 0)

/-- Hadamard (element-wise) product (`function hadamard_product`,
`matrix_ops.ts:235`). -/
def hadamard_product (matrix1 matrix2 : List F) : List F :=
  (List.range matrix1.length).map
    (fun i => matrix1.getD i 0 * matrix2.getD i 0)

/-- Matrix multiplication (`function mul`, `matrix_ops.ts:252`).  The
source fills `result[i·P + j]` with the dot product over the shared
dimension for `i < M`, `j < P`; slot `t` of the result corresponds to
`i = t / P`, `j = t % P`.  The source's `assertEqual(shape1[1], shape2[0])`
is the separate constraint `mul_constr`. -/
def mul (matrix1 matrix2 : List F) (matrix1_shape matrix2_shape : ℕ × ℕ) :
    List F :=
  (List.range (matrix1_shape.1 * matrix2_shape.2)).map (fun t =>
    ∑ k ∈ Finset.range matrix1_shape.2,
      matrix1.getD (t / matrix2_shape.2 * matrix1_shape.2 + k) 0 *
        matrix2.getD (k * matrix2_shape.2 + t % matrix2_shape.2) 0)

/-- The dimension constraint emitted by `mul` (`matrix_ops.ts:259`):
columns of the first factor must equal rows of the second. -/
def mul_constr (matrix1_shape matrix2_shape : ℕ × ℕ) : Prop :=
  matrix1_shape.2 = matrix2_shape.1

/-- Scalar multiplication (`function scalar_mul`, `matrix_ops.ts:288`). -/
def scalar_mul (matrix : List F) (scalar : F) : List F :=
  matrix.map (fun v => scalar * v)

/-- Scalar division (`function scalar_div`, `matrix_ops.ts:304`): the
value array divided entrywise, paired with the constraint emitted by
`scalar.assertNotEquals(Field(0))`. -/
def scalar_div (matrix : List F) (scalar : F) : List F × Prop :=
  (matrix.map (fun v => v / scalar), scalar ≠ 0)

/-- Transpose (`function transpose`, `matrix_ops.ts:320`): a buffer of
the input's length, slot `j·rows + i` receiving entry `i·cols + j`.
Slot `u < rows·cols` is written with `i = u % rows`, `j = u / rows`;
slots beyond `rows·cols` (absent on well-shaped input) keep the fill
value `0`. -/
def transpose (matrix_values : List F) (shape : ℕ × ℕ) : List F :=
  (List.range matrix_values.length).map (fun u =>
    if u < shape.1 * shape.2 then
      matrix_values.getD (u % shape.1 * shape.2 + u / shape.1) 0
    else 0)

/-- Constant-index minor extraction (`function get_minor`,
`matrix_ops.ts:341`): walk the rows in order skipping the excluded row,
and within each kept row walk the columns skipping the excluded column;
kept cells land at consecutive indices `r·(n−1) + c` of the minor buffer,
i.e. the result is the concatenation of the kept cells in scan order.
The witness-and-assert round trip on each copied cell is identically
satisfied (see the header) and is embedded as a direct copy. -/
def get_minor (matrix : List F) (row col n : ℕ) : List F :=
  ((List.range n).filter (fun i => i ≠ row)).flatMap (fun i =>
    ((List.range n).filter (fun j => j ≠ col)).map (fun j =>
      matrix.getD (i * n + j) 0))

/-- Recursive determinant (`function determinant`, `matrix_ops.ts:372`).
The source asserts the shape square and dispatches on `n`: the `a·d − b·c`
closed form for `n = 2`, the sole element for `n = 1`, and otherwise
cofactor expansion along the first row with alternating sign starting at
`+1` (for `n = 0` the expansion loop is empty and returns `0`). -/
def determinant : ℕ → List F → F
  | 0, _ => 0
  | 1, matrix => matrix.getD 0 0
  | 2, matrix =>
      matrix.getD 0 0 * matrix.getD 3 0 - matrix.getD 1 0 * matrix.getD 2 0
  | n + 3, matrix =>
      ∑ i ∈ Finset.range (n + 3),
        (-1 : F) ^ i * matrix.getD i 0 *
          determinant (n + 2) (get_minor matrix 0 i (n + 3))

/-- Adjugate (`function adjoint`, `matrix_ops.ts:410`): the cofactor
matrix — entry `i·n + j` is `(−1)^(i+j)` times the determinant of the
minor excluding row `i` and column `j` — transposed. -/
def adjoint (n : ℕ) (matrix : List F) : List F :=
  transpose
    ((List.range (n * n)).map (fun t =>
      (-1 : F) ^ (t / n + t % n) *
        determinant (n - 1) (get_minor matrix (t / n) (t % n) n)))
    (n, n)

/-- Inverse (`function inverse`, `matrix_ops.ts:445`): adjugate divided
entrywise by the determinant, paired with the constraint emitted by
`det.assertNotEquals(Field(0))`. -/
def inverse (n : ℕ) (matrix : List F) : List F × Prop :=
  ((List.range (n * n)).map (fun t =>
      (adjoint n matrix).getD t 0 / determinant n matrix),
    determinant n matrix ≠ 0)

/-- The identity value array of size `n × n`: multiplicative identity on
the diagonal, additive identity off it (the expected result in the
round-trip property of the spec, §8). -/
def idList (n : ℕ) : List F :=
  (List.range (n * n)).map (fun t => if t / n = t % n then 1 else 0)

/-! ## The Matrix entity (primary variant) -/

/-- Row-major matrix entity (`class Matrix`, `matrix_ops.ts:23`): value
array, `[rows, cols]` shape, and affine quantization parameters. -/
structure MatrixE (F : Type*) where
  values : List F
  shape : ℕ × ℕ
  zero_point : F
  scale : F

/-- Constructor of the primary `Matrix` (`matrix_ops.ts:38`): throws a
host-language error — modelled as `none` — exactly when the number of
values differs from `rows × cols`. -/
def MatrixE.mk? (values : List F) (shape : ℕ × ℕ) (zero_point scale : F) :
    Option (MatrixE F) :=
  if values.length = shape.1 * shape.2 then
    some ⟨values, shape, zero_point, scale⟩
  else none

/-- Configuration check (`function constr_matrix_config`,
`matrix_ops.ts:469`): asserts the two shapes, zero-points and scales
pairwise equal. -/
def constr_matrix_config (matrix other : MatrixE F) : Prop :=
  matrix.shape.1 = other.shape.1 ∧ matrix.shape.2 = other.shape.2 ∧
    matrix.zero_point = other.zero_point ∧ matrix.scale = other.scale

/-- Method `Matrix.add` (`matrix_ops.ts:57`): the element-wise sum,
with the constraints `constr_matrix_config` plus neutral quantization of
the right-hand operand. -/
def MatrixE.addM (A other : MatrixE F) : MatrixE F × Prop :=
  (⟨add A.values other.values, A.shape, A.zero_point, A.scale⟩,
    constr_matrix_config A other ∧ other.zero_point = 0 ∧ other.scale = 1)

/-- Method `Matrix.sub` (`matrix_ops.ts:73`). -/
def MatrixE.subM (A other : MatrixE F) : MatrixE F × Prop :=
  (⟨sub A.values other.values, A.shape, A.zero_point, A.scale⟩,
    constr_matrix_config A other ∧ other.zero_point = 0 ∧ other.scale = 1)

/-- Method `Matrix.hadamard_product` (`matrix_ops.ts:89`). -/
def MatrixE.hadamardM (A other : MatrixE F) : MatrixE F × Prop :=
  (⟨hadamard_product A.values other.values, A.shape, A.zero_point, A.scale⟩,
    constr_matrix_config A other ∧ other.zero_point = 0 ∧ other.scale = 1)

/-- Method `Matrix.mul` (`matrix_ops.ts:105`): result shape is
`(A.rows, other.cols)`; asserts the right operand neutral, the two
quantizations equal, and (inside `function mul`) the inner dimensions
equal. -/
def MatrixE.mulM (A other : MatrixE F) : MatrixE F × Prop :=
  (⟨mul A.values other.values A.shape other.shape,
      (A.shape.1, other.shape.2), A.zero_point, A.scale⟩,
    other.zero_point = 0 ∧ other.scale = 1 ∧
      A.zero_point = other.zero_point ∧ A.scale = other.scale ∧
      mul_constr A.shape other.shape)

/-- Method `Matrix.scalar_mul` (`matrix_ops.ts:122`): asserts the
receiver's quantization neutral. -/
def MatrixE.scalar_mulM (A : MatrixE F) (scalar : F) : MatrixE F × Prop :=
  (⟨scalar_mul A.values scalar, A.shape, A.zero_point, A.scale⟩,
    A.zero_point = 0 ∧ A.scale = 1)

/-- Method `Matrix.scalar_div` (`matrix_ops.ts:137`): asserts the
receiver's quantization neutral; `function scalar_div` adds the
non-zero-divisor constraint. -/
def MatrixE.scalar_divM (A : MatrixE F) (scalar : F) : MatrixE F × Prop :=
  (⟨(scalar_div A.values scalar).1, A.shape, A.zero_point, A.scale⟩,
    A.zero_point = 0 ∧ A.scale = 1 ∧ (scalar_div A.values scalar).2)

/-- Method `Matrix.transpose` (`matrix_ops.ts:150`): swaps the shape and
emits no constraints. -/
def MatrixE.transposeM (A : MatrixE F) : MatrixE F :=
  ⟨transpose A.values A.shape, (A.shape.2, A.shape.1),
    A.zero_point, A.scale⟩

/-- Method `Matrix.determinant` (`matrix_ops.ts:162`): asserts the
receiver's quantization neutral; `function determinant` adds the
square-shape assertion. -/
def MatrixE.determinantM (A : MatrixE F) : F × Prop :=
  (determinant A.shape.1 A.values,
    A.zero_point = 0 ∧ A.scale = 1 ∧ A.shape.1 = A.shape.2)

/-- Method `Matrix.adjoint` (`matrix_ops.ts:174`): asserts the receiver's
quantization neutral; `function adjoint` adds the square-shape
assertion. -/
def MatrixE.adjointM (A : MatrixE F) : MatrixE F × Prop :=
  (⟨adjoint A.shape.1 A.values, A.shape, A.zero_point, A.scale⟩,
    A.zero_point = 0 ∧ A.scale = 1 ∧ A.shape.1 = A.shape.2)

/-- Method `Matrix.inverse` (`matrix_ops.ts:188`): asserts the receiver's
quantization neutral; `function inverse` adds the square-shape assertion
and the non-zero-determinant constraint. -/
def MatrixE.inverseM (A : MatrixE F) : MatrixE F × Prop :=
  (⟨(inverse A.shape.1 A.values).1, A.shape, A.zero_point, A.scale⟩,
    A.zero_point = 0 ∧ A.scale = 1 ∧ A.shape.1 = A.shape.2 ∧
      (inverse A.shape.1 A.values).2)

/-! ## The draft (`values_len`) variant -/

/-- Draft-variant matrix entity (second document in the concatenated
source, `matrix_ops.ts:479`): carries a redundant `values_len` field. -/
structure Matrix2 (F : Type*) where
  values : List F
  values_len : ℕ
  shape : ℕ × ℕ
  zero_point : F
  scale : F

/-- Draft-variant constructor (`matrix_ops.ts:486`): computes
`values_len.equals(exp_values_len)` but discards the resulting `Bool` —
neither a thrown error nor an assertion — so construction always
succeeds whatever `exp_values_len` is, and the stored `values_len` is the
actual length of the value array. -/
def Matrix2.mk? (values : List F) (_exp_values_len : ℕ) (shape : ℕ × ℕ)
    (zero_point scale : F) : Option (Matrix2 F) :=
  let values_len := values.length
  some ⟨values, values_len, shape, zero_point, scale⟩

/-- Guarded buffer write of the witnessed-index minor path.  In the
source the write index is `Number(r)·(n−1) + Number(c)` with `r`, `c`
field-valued counters; when `r` still holds its initial `−1`, `Number(r)`
is the canonical representative `p − 1` and the write lands astronomically
beyond every slot the engine ever reads (JavaScript keeps it as an
out-of-range property).  The counters are embedded as integers, and a
write outside `[0, length)` leaves the buffer unchanged, which is
observationally identical for every in-buffer read. -/
def setI (l : List F) (idx : ℤ) (v : F) : List F :=
  if 0 ≤ idx then l.set idx.toNat v else l

/-- Witnessed-index minor extraction (draft variant, `matrix_ops.ts:627`):
counters `r`, `c` start at `−1`; `r` is incremented by a branchless select
when `i ≠ row`, `c` when `j ≠ col`, and the write of the source cell into
`minor[r·(n−1) + c]` is selected when `j ≠ col` (and writes the old value
back otherwise).  Note the write is not gated on `i ≠ row`: the excluded
row's cells are also written, at the not-yet-incremented `r`. -/
def get_minor_w (matrix : List F) (row col n : ℕ) (minor : List F) :
    List F :=
  ((List.range n).foldl
    (fun st i =>
      let r := if i ≠ row then st.1 + 1 else st.1
      (r, ((List.range n).foldl
        (fun st2 j =>
          let c := if j ≠ col then st2.1 + 1 else st2.1
          (c, if j ≠ col
            then setI st2.2 (r * ((n : ℤ) - 1) + c)
              (matrix.getD (i * n + j) 0)
            else st2.2))
        ((-1 : ℤ), st.2)).2))
    ((-1 : ℤ), minor)).2

/-- Draft-variant determinant (`matrix_ops.ts:646`): computes the 2×2
closed form, the 1×1 value and the first-row cofactor expansion
unconditionally, and selects among them with `Provable.switch` keyed on
`shape = 2` / `shape = 1` / otherwise.  The expansion recurses through
the witnessed-index minor path with a fresh zero buffer of the current
value array's length. -/
def determinant_sw : ℕ → List F → F
  | 0, _ => 0
  | n + 1, matrix =>
      let det_shape_eq_2 :=
        matrix.getD 0 0 * matrix.getD 3 0 - matrix.getD 1 0 * matrix.getD 2 0
      let det_shape_eq_1 := matrix.getD 0 0
      let det_shape_other := ∑ i ∈ Finset.range (n + 1),
        (-1 : F) ^ i * matrix.getD i 0 *
          determinant_sw n (get_minor_w matrix 0 i (n + 1)
            (List.replicate matrix.length 0))
      if n + 1 = 2 then det_shape_eq_2
      else if n + 1 = 1 then det_shape_eq_1
      else det_shape_other

/-! ## Quantized scalar arithmetic (`quantize.ts`) -/

/-- Truthiness of an o1js `Bool` under a JavaScript `if`: the comparison
result is an object, and any object is truthy, whatever boolean it
wraps (`quantize.ts`, `if (is_x_scale_gr)`). -/
def jsTruthy (_ : Bool) : Bool := true

/-- Common-multiplier selection of `add_quant` / `sub_quant`
(`quantize.ts:744`): the scaled reciprocals `s·100` are range-checked to
8 bits and compared with the host field comparator `fgt`
(`greaterThan`), but the comparison result is used directly as a
JavaScript `if` condition, so the first branch is always taken and the
multiplier is `2·s_y` regardless of the comparison. -/
def add_quant_multiplier (fgt : F → F → Bool)
    (x_scale_reciprocal y_scale_reciprocal : F) : F :=
  if jsTruthy (fgt (x_scale_reciprocal * 100) (y_scale_reciprocal * 100))
  then y_scale_reciprocal * 2
  else x_scale_reciprocal * 2

/-- Quantized addition (`function add_quant`, `quantize.ts:742`): the
operands are rescaled by `(1/s)/multiplier`, summed, and requantized by
`multiplier·s_out` before adding the output zero-point.  The two
`rangeCheck8` constraints on `s_x·100` and `s_y·100` bound the scales but
do not enter the computed value. -/
def add_quant (fgt : F → F → Bool)
    (x_quantized x_zero_point x_scale_reciprocal
      y_quantized y_zero_point y_scale_reciprocal
      z_zero_point z_scale_reciprocal : F) : F :=
  let multiplier_x_y :=
    add_quant_multiplier fgt x_scale_reciprocal y_scale_reciprocal
  let multiplier_x := (1 / x_scale_reciprocal) / multiplier_x_y
  let multiplier_y := (1 / y_scale_reciprocal) / multiplier_x_y
  let multiplier_x_y_z := multiplier_x_y * z_scale_reciprocal
  multiplier_x_y_z * (multiplier_x * (x_quantized - x_zero_point) +
    multiplier_y * (y_quantized - y_zero_point)) + z_zero_point

/-- Quantized subtraction (`function sub_quant`, `quantize.ts:769`):
identical to `add_quant` with the rescaled operands subtracted. -/
def sub_quant (fgt : F → F → Bool)
    (x_quantized x_zero_point x_scale_reciprocal
      y_quantized y_zero_point y_scale_reciprocal
      z_zero_point z_scale_reciprocal : F) : F :=
  let multiplier_x_y :=
    add_quant_multiplier fgt x_scale_reciprocal y_scale_reciprocal
  let multiplier_x := (1 / x_scale_reciprocal) / multiplier_x_y
  let multiplier_y := (1 / y_scale_reciprocal) / multiplier_x_y
  let multiplier_x_y_z := multiplier_x_y * z_scale_reciprocal
  multiplier_x_y_z * (multiplier_x * (x_quantized - x_zero_point) -
    multiplier_y * (y_quantized - y_zero_point)) + z_zero_point

/-- Quantized multiplication (`function mul_quant`, `quantize.ts:728`). -/
def mul_quant (x_quantized x_zero_point x_scale_reciprocal
    y_quantized y_zero_point y_scale_reciprocal
    z_zero_point z_scale_reciprocal : F) : F :=
  1 / (x_scale_reciprocal * y_scale_reciprocal / z_scale_reciprocal) *
    (x_quantized - x_zero_point) * (y_quantized - y_zero_point) +
    z_zero_point

/-- Quantized division (`function div_quant`, `quantize.ts:735`). -/
def div_quant (x_quantized x_zero_point x_scale_reciprocal
    y_quantized y_zero_point y_scale_reciprocal
    z_zero_point z_scale_reciprocal : F) : F :=
  1 / (x_scale_reciprocal / y_scale_reciprocal / z_scale_reciprocal) *
    (x_quantized - x_zero_point) / (y_quantized - y_zero_point) +
    z_zero_point

/-! ## Proof-layer views -/

/-- The row-major value array of a square matrix, read through Mathlib's
matrix type: entry `(i, j)` is slot `i·n + j`. -/
def toMat (n : ℕ) (m : List F) : Matrix (Fin n) (Fin n) F :=
  Matrix.of fun i j => m.getD (i * n + j) 0

/-- One outer-loop step of the witnessed-index minor path with excluded
row 0, after the column gate has been rewritten as a filter (proof-layer
view of `get_minor_w`). -/
def minorWStep (m : List F) (col n : ℕ) : (ℤ × List F) → ℕ → (ℤ × List F) :=
  fun st i =>
    ((if i ≠ 0 then st.1 + 1 else st.1 : ℤ),
      (((List.range n).filter (fun j => j ≠ col)).foldl
        (fun st2 j => ((st2.1 + 1 : ℤ),
          setI st2.2 ((if i ≠ 0 then st.1 + 1 else st.1) * ((n : ℤ) - 1)
            + (st2.1 + 1)) (m.getD (i * n + j) 0)))
        ((-1 : ℤ), st.2)).2)

/-! ## Bridge to Mathlib matrices -/

theorem getD_map_range {α : Type*} (f : ℕ → α) (d : α) (n t : ℕ) :
    ((List.range n).map f).getD t d = if t < n then f t else d := by
  by_cases h : t < n
  · rw [List.getD_eq_getElem _ _ (by simpa using h)]
    simp [h]
  · rw [List.getD_eq_default _ _ (by simpa using Nat.le_of_not_lt h)]
    simp [h]

theorem flatMap_getD {α β : Type*} (l : List α) (f : α → List β) (k : ℕ)
    (hk : ∀ a, (f a).length = k) (d : β) (a₀ : α) (r c : ℕ)
    (hr : r < l.length) (hc : c < k) :
    (l.flatMap f).getD (r * k + c) d = (f (l.getD r a₀)).getD c d := by
  induction l generalizing r with
  | nil => simp at hr
  | cons a l ih =>
    cases r with
    | zero =>
      rw [List.flatMap_cons, Nat.zero_mul, Nat.zero_add,
        List.getD_append _ _ _ _ (by rw [hk]; exact hc)]
      simp
    | succ r =>
      rw [List.flatMap_cons,
        List.getD_append_right _ _ _ _ (by rw [hk]; nlinarith),
        hk]
      have h2 : (r + 1) * k + c - k = r * k + c := by ring_nf; omega
      rw [h2]
      exact ih r (by simpa using hr)

theorem range_filter_ne (n k : ℕ) (hk : k < n) :
    (List.range n).filter (fun i => i ≠ k) =
      List.range k ++ (List.range (n - k - 1)).map (fun x => k + 1 + x) := by
  have h1 : n = (k + 1) + (n - k - 1) := by omega
  conv_lhs => rw [h1]
  rw [List.range_add, List.filter_append, List.range_succ,
    List.filter_append]
  have e1 : (List.range k).filter (fun i => i ≠ k) = List.range k := by
    rw [List.filter_eq_self]
    intro a ha
    simp only [List.mem_range] at ha
    simp [Nat.ne_of_lt ha]
  have e2 : ([k].filter (fun i => i ≠ k)) = [] := by simp
  have e3 : ((List.range (n - k - 1)).map (fun x => k + 1 + x)).filter
      (fun i => i ≠ k) = (List.range (n - k - 1)).map (fun x => k + 1 + x) := by
    rw [List.filter_eq_self]
    intro a ha
    simp only [List.mem_map, List.mem_range] at ha
    obtain ⟨x, _, rfl⟩ := ha
    simp; omega
  rw [e1, e2, e3, List.append_nil]

theorem range_filter_ne_length (n k : ℕ) (hk : k < n) :
    ((List.range n).filter (fun i => i ≠ k)).length = n - 1 := by
  rw [range_filter_ne n k hk]
  simp; omega

theorem range_filter_ne_getD (n k r : ℕ) (hk : k < n) (hr : r < n - 1) :
    ((List.range n).filter (fun i => i ≠ k)).getD r 0 =
      if r < k then r else r + 1 := by
  rw [range_filter_ne n k hk]
  by_cases h : r < k
  · rw [List.getD_append _ _ _ _ (by simpa using h), if_pos h]
    rw [List.getD_eq_getElem _ _ (by simpa using h)]
    simp
  · rw [List.getD_append_right _ _ _ _ (by simpa using Nat.le_of_not_lt h),
      if_neg h]
    have hlen : r - (List.range k).length < n - k - 1 := by simp; omega
    rw [List.getD_eq_getElem _ _ (by simpa using hlen)]
    simp; omega

theorem get_minor_length (m : List F) (row col n : ℕ)
    (hrow : row < n) (hcol : col < n) :
    (get_minor m row col n).length = (n - 1) * (n - 1) := by
  unfold get_minor
  rw [List.length_flatMap]
  have hcongr : List.map
        (List.length ∘ fun i =>
          ((List.range n).filter (fun j => j ≠ col)).map
            (fun j => m.getD (i * n + j) 0))
        ((List.range n).filter (fun i => i ≠ row)) =
      List.map (fun _ => n - 1)
        ((List.range n).filter (fun i => i ≠ row)) := by
    apply List.map_congr_left
    intro a _
    show (((List.range n).filter (fun j => j ≠ col)).map _).length = n - 1
    rw [List.length_map]
    exact range_filter_ne_length n col hcol
  rw [hcongr, List.map_const', List.sum_replicate, smul_eq_mul,
    range_filter_ne_length n row hrow]

theorem get_minor_getD (m : List F) (row col n r c : ℕ)
    (hrow : row < n) (hcol : col < n) (hr : r < n - 1) (hc : c < n - 1) :
    (get_minor m row col n).getD (r * (n - 1) + c) 0 =
      m.getD ((if r < row then r else r + 1) * n +
        (if c < col then c else c + 1)) 0 := by
  unfold get_minor
  rw [flatMap_getD _ _ (n - 1)
    (fun a => by rw [List.length_map, range_filter_ne_length n col hcol])
    0 0 r c (by rw [range_filter_ne_length n row hrow]; exact hr) hc]
  rw [range_filter_ne_getD n row r hrow hr]
  have hlen : c < (((List.range n).filter (fun j => j ≠ col)).map
      (fun j => m.getD ((if r < row then r else r + 1) * n + j) 0)).length := by
    rw [List.length_map, range_filter_ne_length n col hcol]; exact hc
  rw [List.getD_eq_getElem _ _ hlen, List.getElem_map]
  congr 1
  rw [← List.getD_eq_getElem _ 0
    (by rw [range_filter_ne_length n col hcol]; exact hc)]
  rw [range_filter_ne_getD n col c hcol hc]

theorem coe_succAbove {n : ℕ} (p : Fin (n + 1)) (i : Fin n) :
    (p.succAbove i : ℕ) = if (i : ℕ) < (p : ℕ) then (i : ℕ) else (i : ℕ) + 1 := by
  by_cases h : (i : ℕ) < (p : ℕ)
  · rw [Fin.succAbove_of_castSucc_lt p i (by rwa [Fin.lt_def, Fin.coe_castSucc]),
      if_pos h, Fin.coe_castSucc]
  · rw [Fin.succAbove_of_le_castSucc p i
      (by rw [Fin.le_def, Fin.coe_castSucc]; omega), if_neg h, Fin.val_succ]

theorem toMat_get_minor (n : ℕ) (m : List F) (row col : Fin (n + 1)) :
    toMat n (get_minor m row col (n + 1)) =
      (toMat (n + 1) m).submatrix row.succAbove col.succAbove := by
  ext r c
  simp only [toMat, Matrix.of_apply, Matrix.submatrix_apply]
  have h1 : (n + 1) - 1 = n := rfl
  rw [show ((r : ℕ) * n + c) = (r : ℕ) * ((n+1) - 1) + c by rw [h1]]
  rw [get_minor_getD m row col (n + 1) r c row.isLt col.isLt
    (by rw [h1]; exact r.isLt) (by rw [h1]; exact c.isLt)]
  rw [coe_succAbove row r, coe_succAbove col c]

theorem determinant_toMat : ∀ (n : ℕ) (m : List F),
    determinant (n + 1) m = (toMat (n + 1) m).det := by
  intro n
  induction n using Nat.strong_induction_on with
  | _ n ih =>
    intro m
    match n with
    | 0 =>
        rw [Matrix.det_fin_one]
        simp [determinant, toMat]
    | 1 =>
        rw [Matrix.det_fin_two]
        show m.getD 0 0 * m.getD 3 0 - m.getD 1 0 * m.getD 2 0 = _
        norm_num [toMat]
    | k + 2 =>
        rw [Matrix.det_succ_row_zero]
        show (∑ i ∈ Finset.range (k + 3), (-1 : F) ^ i * m.getD i 0 *
          determinant (k + 2) (get_minor m 0 i (k + 3))) = _
        rw [← Fin.sum_univ_eq_sum_range (fun i => (-1 : F) ^ i * m.getD i 0 *
          determinant (k + 2) (get_minor m 0 i (k + 3))) (k + 3)]
        apply Finset.sum_congr rfl
        intro j _
        rw [ih (k + 1) (by omega) (get_minor m 0 j (k + 3))]
        have h0 : (0 : ℕ) = ((0 : Fin (k + 3)) : ℕ) := rfl
        rw [h0, toMat_get_minor (k + 2) m 0 j, Fin.succAbove_zero]
        congr 1
        show (-1 : F) ^ (j : ℕ) * m.getD (j : ℕ) 0 = _
        congr 1
        show m.getD (j : ℕ) 0 = toMat (k + 3) m 0 j
        simp [toMat]

theorem idx_lt (r c i j : ℕ) (hi : i < r) (hj : j < c) : i * c + j < r * c :=
  calc i * c + j < i * c + c := by omega
    _ = (i + 1) * c := by ring
    _ ≤ r * c := Nat.mul_le_mul_right c hi

theorem idx_div (n i j : ℕ) (hj : j < n) : (i * n + j) / n = i := by
  rw [Nat.mul_comm i n, Nat.mul_add_div (by omega), Nat.div_eq_of_lt hj,
    Nat.add_zero]

theorem idx_mod (n i j : ℕ) (hj : j < n) : (i * n + j) % n = j := by
  rw [Nat.mul_comm i n, Nat.mul_add_mod, Nat.mod_eq_of_lt hj]

theorem transpose_getD (m : List F) (r c u : ℕ) (hm : m.length = r * c)
    (hu : u < r * c) :
    (transpose m (r, c)).getD u 0 = m.getD (u % r * c + u / r) 0 := by
  unfold transpose
  rw [hm, getD_map_range, if_pos hu, if_pos hu]

theorem toMat_transpose (n : ℕ) (m : List F) (hm : m.length = n * n) :
    toMat n (transpose m (n, n)) = (toMat n m).transpose := by
  ext i j
  show (transpose m (n, n)).getD ((i : ℕ) * n + j) 0 = m.getD ((j : ℕ) * n + i) 0
  rw [transpose_getD m n n _ hm (idx_lt n n i j i.isLt j.isLt)]
  rw [idx_mod n i j j.isLt, idx_div n i j j.isLt]

theorem toMat_adjoint (n : ℕ) (m : List F) :
    toMat (n + 2) (adjoint (n + 2) m) = (toMat (n + 2) m).adjugate := by
  ext i j
  show (adjoint (n + 2) m).getD ((i : ℕ) * (n + 2) + j) 0 = _
  unfold adjoint
  rw [transpose_getD _ (n + 2) (n + 2) _ (by simp)
    (idx_lt (n + 2) (n + 2) i j i.isLt j.isLt)]
  rw [idx_mod (n + 2) i j j.isLt, idx_div (n + 2) i j j.isLt]
  rw [getD_map_range, if_pos (idx_lt (n + 2) (n + 2) j i j.isLt i.isLt)]
  rw [idx_div (n + 2) j i i.isLt, idx_mod (n + 2) j i i.isLt]
  rw [Matrix.adjugate_fin_succ_eq_det_submatrix]
  congr 1
  rw [show (n + 2 - 1) = n + 1 from rfl,
    determinant_toMat n (get_minor m j i (n + 2)),
    toMat_get_minor (n + 1) m j i]

theorem toMat_inverse (n : ℕ) (m : List F) :
    toMat (n + 2) ((inverse (n + 2) m).1) =
      (determinant (n + 2) m)⁻¹ • (toMat (n + 2) m).adjugate := by
  ext i j
  show ((inverse (n + 2) m).1).getD ((i : ℕ) * (n + 2) + j) 0 = _
  unfold inverse
  rw [getD_map_range, if_pos (idx_lt (n + 2) (n + 2) i j i.isLt j.isLt)]
  rw [Matrix.smul_apply, smul_eq_mul]
  have hadj : (adjoint (n + 2) m).getD ((i : ℕ) * (n + 2) + j) 0 =
      toMat (n + 2) (adjoint (n + 2) m) i j := rfl
  rw [hadj, toMat_adjoint, div_eq_inv_mul]

theorem toMat_mul_sq (n : ℕ) (m1 m2 : List F) :
    toMat n (mul m1 m2 (n, n) (n, n)) = toMat n m1 * toMat n m2 := by
  ext i j
  show (mul m1 m2 (n, n) (n, n)).getD ((i : ℕ) * n + j) 0 = _
  unfold mul
  rw [getD_map_range, if_pos (idx_lt n n i j i.isLt j.isLt)]
  rw [Matrix.mul_apply]
  rw [idx_div n i j j.isLt, idx_mod n i j j.isLt]
  rw [← Fin.sum_univ_eq_sum_range
    (fun k => m1.getD ((i : ℕ) * n + k) 0 * m2.getD (k * n + j) 0) n]
  rfl

theorem mul_inverse_eq_idList (n : ℕ) (m : List F)
    (hdet : determinant (n + 2) m ≠ 0) :
    mul m (inverse (n + 2) m).1 (n + 2, n + 2) (n + 2, n + 2) =
      idList (n + 2) := by
  have hdet2 : (toMat (n + 2) m).det ≠ 0 := by
    rwa [← determinant_toMat (n + 1) m]
  have hmat : toMat (n + 2)
      (mul m (inverse (n + 2) m).1 (n + 2, n + 2) (n + 2, n + 2)) = 1 := by
    rw [toMat_mul_sq, toMat_inverse, mul_smul_comm, Matrix.mul_adjugate]
    rw [determinant_toMat (n + 1) m]
    rw [smul_smul, inv_mul_cancel₀ hdet2, one_smul]
  apply List.ext_getElem
  · simp [mul, idList]
  intro t ht1 ht2
  have ht : t < (n + 2) * (n + 2) := by
    simpa [mul] using ht1
  have hfin1 : t / (n + 2) < n + 2 := Nat.div_lt_of_lt_mul (by omega)
  have hfin2 : t % (n + 2) < n + 2 := Nat.mod_lt _ (by omega)
  have key := congrFun (congrFun hmat ⟨t / (n + 2), hfin1⟩) ⟨t % (n + 2), hfin2⟩
  rw [Matrix.one_apply] at key
  have hidx : t / (n + 2) * (n + 2) + t % (n + 2) = t := by
    rw [Nat.mul_comm]
    exact Nat.div_add_mod t (n + 2)
  have hentry : toMat (n + 2)
      (mul m (inverse (n + 2) m).1 (n + 2, n + 2) (n + 2, n + 2))
      ⟨t / (n + 2), hfin1⟩ ⟨t % (n + 2), hfin2⟩ =
      (mul m (inverse (n + 2) m).1 (n + 2, n + 2) (n + 2, n + 2)).getD
        (t / (n + 2) * (n + 2) + t % (n + 2)) 0 := rfl
  rw [hentry, hidx] at key
  rw [List.getD_eq_getElem _ _ ht1] at key
  rw [key]
  simp only [idList]
  rw [List.getElem_map, List.getElem_range]
  by_cases h : t / (n + 2) = t % (n + 2)
  · rw [if_pos h, if_pos (by exact Fin.ext h)]
  · rw [if_neg h, if_neg (by intro hc; exact h (congrArg Fin.val hc))]

/-! ## Behaviour of the witnessed-index minor path at excluded row 0 -/

omit [Field F] in
theorem setI_length (l : List F) (idx : ℤ) (v : F) :
    (setI l idx v).length = l.length := by
  unfold setI
  split <;> simp

theorem setI_getD (l : List F) (idx : ℤ) (v : F) (t : ℕ) :
    (setI l idx v).getD t 0 =
      if (t : ℤ) = idx ∧ t < l.length then v else l.getD t 0 := by
  unfold setI
  by_cases h0 : 0 ≤ idx
  · rw [if_pos h0]
    by_cases ht : (t : ℤ) = idx ∧ t < l.length
    · have htn : idx.toNat = t := by omega
      rw [if_pos ht, htn,
        List.getD_eq_getElem _ _ (by rw [List.length_set]; exact ht.2)]
      exact List.getElem_set_self _
    · rw [if_neg ht]
      by_cases hlen : t < l.length
      · have hne : idx.toNat ≠ t := by
          intro hc
          exact ht ⟨by omega, hlen⟩
        rw [List.getD_eq_getElem _ _ (by rw [List.length_set]; exact hlen),
          List.getD_eq_getElem _ _ hlen]
        exact List.getElem_set_ne hne _
      · rw [List.getD_eq_default _ _ (by rw [List.length_set]; omega),
          List.getD_eq_default _ _ (by omega)]
  · rw [if_neg h0, if_neg (by omega)]

theorem foldl_fun_congr {α β : Type*} (f g : β → α → β)
    (h : ∀ b a, f b a = g b a) (l : List α) (init : β) :
    l.foldl f init = l.foldl g init := by
  induction l generalizing init with
  | nil => rfl
  | cons a l ih => rw [List.foldl_cons, List.foldl_cons, h, ih]

theorem inner_gate_filter (m : List F) (col n i : ℕ) (r : ℤ) (js : List ℕ) :
    ∀ (c : ℤ) (b : List F),
    js.foldl (fun st2 j =>
      let c2 := if j ≠ col then st2.1 + 1 else st2.1
      (c2, if j ≠ col
        then setI st2.2 (r * ((n : ℤ) - 1) + c2) (m.getD (i * n + j) 0)
        else st2.2)) (c, b) =
    (js.filter (fun j => j ≠ col)).foldl (fun st2 j =>
      ((st2.1 + 1 : ℤ), setI st2.2 (r * ((n : ℤ) - 1) + (st2.1 + 1))
        (m.getD (i * n + j) 0))) (c, b) := by
  induction js with
  | nil => intro c b; rfl
  | cons j js ih =>
    intro c b
    by_cases h : j = col
    · subst h
      simp only [List.foldl_cons, List.filter_cons, ne_eq, not_true_eq_false,
        decide_False, if_false, decide_True]
      rw [if_neg (by simp)]
      exact ih c b
    · simp only [List.foldl_cons, List.filter_cons, ne_eq, h,
        not_false_eq_true, decide_True, if_true]
      exact ih (c + 1) _

theorem write_fold_neg (m : List F) (n i : ℕ) (r : ℤ) :
    ∀ (js : List ℕ) (c : ℤ) (b : List F),
      r * ((n : ℤ) - 1) + c + js.length < 0 →
      ((js.foldl (fun st2 j =>
        ((st2.1 + 1 : ℤ), setI st2.2 (r * ((n : ℤ) - 1) + (st2.1 + 1))
          (m.getD (i * n + j) 0))) (c, b)).2) = b := by
  intro js
  induction js with
  | nil => intro c b _; rfl
  | cons j js ih =>
    intro c b hneg
    simp only [List.length_cons] at hneg
    rw [List.foldl_cons]
    have hwr : setI b (r * ((n : ℤ) - 1) + (c + 1)) (m.getD (i * n + j) 0)
        = b := by
      unfold setI
      rw [if_neg (by push_cast at hneg ⊢; omega)]
    rw [hwr]
    exact ih (c + 1) b (by push_cast at hneg ⊢; omega)

theorem write_fold_getD (m : List F) (n i : ℕ) (r : ℤ) :
    ∀ (js : List ℕ) (c : ℤ) (b : List F),
      0 ≤ r * ((n : ℤ) - 1) + c + 1 →
      ∀ t : ℕ,
      ((js.foldl (fun st2 j =>
          ((st2.1 + 1 : ℤ), setI st2.2 (r * ((n : ℤ) - 1) + (st2.1 + 1))
            (m.getD (i * n + j) 0)))
        (c, b)).2).getD t 0 =
      (if r * ((n : ℤ) - 1) + c + 1 ≤ (t : ℤ) ∧
          (t : ℤ) < r * ((n : ℤ) - 1) + c + 1 + js.length ∧ t < b.length
      then m.getD (i * n +
        js.getD ((t : ℤ) - (r * ((n : ℤ) - 1) + c + 1)).toNat 0) 0
      else b.getD t 0) := by
  intro js
  induction js with
  | nil =>
    intro c b _ t
    rw [List.foldl_nil, if_neg (by simp; omega)]
  | cons j js ih =>
    intro c b hc t
    rw [List.foldl_cons]
    rw [ih (c + 1) _ (by omega) t]
    rw [setI_length]
    by_cases hin : r * ((n : ℤ) - 1) + c + 1 ≤ (t : ℤ) ∧
        (t : ℤ) < r * ((n : ℤ) - 1) + c + 1 + (j :: js).length ∧ t < b.length
    · rw [if_pos hin]
      by_cases ht : (t : ℤ) = r * ((n : ℤ) - 1) + c + 1
      · rw [if_neg (by omega)]
        rw [setI_getD]
        rw [if_pos ⟨by omega, hin.2.2⟩]
        have h0 : ((t : ℤ) - (r * ((n : ℤ) - 1) + c + 1)).toNat = 0 := by
          omega
        rw [h0, List.getD_cons_zero]
      · have hsucc : ((t : ℤ) - (r * ((n : ℤ) - 1) + c + 1)).toNat =
            ((t : ℤ) - (r * ((n : ℤ) - 1) + (c + 1) + 1)).toNat + 1 := by
          omega
        rw [if_pos ⟨by omega, by
            have := hin.2.1
            simp only [List.length_cons] at this
            push_cast at this ⊢
            omega, hin.2.2⟩]
        rw [hsucc, List.getD_cons_succ]
    · rw [if_neg hin]
      rw [if_neg (by
        intro hcon
        exact hin ⟨by omega, by
          simp only [List.length_cons]
          push_cast
          have := hcon.2.1
          push_cast at this
          omega, hcon.2.2⟩)]
      rw [setI_getD]
      rw [if_neg (by
        intro hcon
        exact hin ⟨by omega, by
          simp only [List.length_cons]
          push_cast
          omega, hcon.2⟩)]

theorem get_minor_w_zero_eq_foldl (m : List F) (col n : ℕ) (b : List F) :
    get_minor_w m 0 col n b =
      ((List.range n).foldl (minorWStep m col n) ((-1 : ℤ), b)).2 := by
  unfold get_minor_w minorWStep
  congr 1
  apply foldl_fun_congr
  intro st i
  show ((if i ≠ 0 then st.1 + 1 else st.1 : ℤ), _) = _
  have h := inner_gate_filter m col n i (if i ≠ 0 then st.1 + 1 else st.1)
    (List.range n) (-1) st.2
  rw [h]

theorem minorWStep_ne_zero (m : List F) (col n : ℕ) (st : ℤ × List F)
    (i : ℕ) (hi : i ≠ 0) :
    minorWStep m col n st i = ((st.1 + 1 : ℤ),
      (((List.range n).filter (fun j => j ≠ col)).foldl
        (fun st2 j => ((st2.1 + 1 : ℤ),
          setI st2.2 ((st.1 + 1) * ((n : ℤ) - 1) + (st2.1 + 1))
            (m.getD (i * n + j) 0)))
        ((-1 : ℤ), st.2)).2) := by
  unfold minorWStep
  simp only [ne_eq, hi, not_false_eq_true, if_true, if_pos]

theorem minorWStep_zero (m : List F) (col n : ℕ) (hcol : col < n)
    (b : List F) :
    minorWStep m col n ((-1 : ℤ), b) 0 = ((-1 : ℤ), b) := by
  unfold minorWStep
  simp only [ne_eq, not_true_eq_false, if_false, ite_false]
  rw [write_fold_neg m n 0 (-1) _ (-1) b]
  rw [range_filter_ne_length n col hcol]
  omega

theorem write_fold_length (m : List F) (n i : ℕ) (r : ℤ) :
    ∀ (js : List ℕ) (c : ℤ) (b : List F),
      ((js.foldl (fun st2 j =>
          ((st2.1 + 1 : ℤ), setI st2.2 (r * ((n : ℤ) - 1) + (st2.1 + 1))
            (m.getD (i * n + j) 0)))
        (c, b)).2).length = b.length := by
  intro js
  induction js with
  | nil => intro c b; rfl
  | cons j js ih =>
    intro c b
    rw [List.foldl_cons, ih (c + 1) _, setI_length]

theorem outer_fold_spec (m : List F) (col n : ℕ) (hcol : col < n) :
    ∀ (jcount : ℕ), ∀ (s : ℕ) (b : List F),
      s + jcount ≤ n - 1 →
      (n - 1) * (n - 1) ≤ b.length →
      ∀ t : ℕ,
      ((((List.range jcount).map (fun x => x + s + 1)).foldl
          (minorWStep m col n) (((s : ℤ) - 1), b)).2).getD t 0 =
      if s * (n - 1) ≤ t ∧ t < (s + jcount) * (n - 1)
      then (get_minor m 0 col n).getD t 0
      else b.getD t 0 := by
  intro jcount
  induction jcount with
  | zero =>
    intro s b _ _ t
    have h0 : (s + 0) * (n - 1) = s * (n - 1) := by ring
    rw [List.range_zero, List.map_nil, List.foldl_nil,
      if_neg (by omega)]
  | succ q ih =>
    intro s b hs hb t
    have hA1 : 1 ≤ n := by omega
    have hsucc_mul : (s + 1) * (n - 1) = s * (n - 1) + (n - 1) :=
      Nat.succ_mul s (n - 1)
    have hsq_mul : (s + 1 + q) * (n - 1) = (s + 1) * (n - 1) + q * (n - 1) :=
      Nat.add_mul (s + 1) q (n - 1)
    have hsq_mul2 : (s + (q + 1)) * (n - 1) = (s + 1 + q) * (n - 1) := by
      ring_nf
    have hrows : (List.range (q + 1)).map (fun x => x + s + 1) =
        (s + 1) :: (List.range q).map (fun x => x + (s + 1) + 1) := by
      rw [List.range_succ_eq_map, List.map_cons, List.map_map]
      congr 1
      · omega
      · apply List.map_congr_left
        intro a _
        simp only [Function.comp_apply]
        omega
    rw [hrows, List.foldl_cons,
      minorWStep_ne_zero m col n _ (s + 1) (by omega)]
    rw [show ((s : ℤ) - 1) + 1 = ((s + 1 : ℕ) : ℤ) - 1 from by push_cast; ring]
    rw [ih (s + 1) _ (by omega) (by
      rw [write_fold_length]; exact hb) t]
    have hb1 := write_fold_getD m n (s + 1) (((s + 1 : ℕ) : ℤ) - 1)
      ((List.range n).filter (fun j => j ≠ col)) (-1) b (by push_cast; nlinarith [Nat.zero_le (s * (n - 1))]) t
    rw [range_filter_ne_length n col hcol] at hb1
    have hbase : (((s + 1 : ℕ) : ℤ) - 1) * ((n : ℤ) - 1) + -1 + 1 =
        ((s * (n - 1) : ℕ) : ℤ) := by
      push_cast [Nat.cast_sub hA1]
      ring
    rw [hbase] at hb1
    have hsle : (s + 1) * (n - 1) ≤ (n - 1) * (n - 1) :=
      Nat.mul_le_mul_right (n - 1) (by omega)
    by_cases htail : (s + 1) * (n - 1) ≤ t ∧ t < (s + 1 + q) * (n - 1)
    · rw [if_pos htail, if_pos (by omega)]
    · rw [if_neg htail]
      by_cases hhead : s * (n - 1) ≤ t ∧ t < (s + 1) * (n - 1)
      · rw [if_pos (by omega)]
        rw [hb1, if_pos (by
          refine ⟨by push_cast; omega, by push_cast; omega, by omega⟩)]
        have hA0 : 0 < n - 1 := by omega
        have hc0 : t - s * (n - 1) < n - 1 := by omega
        have htoNat : ((t : ℤ) - ((s * (n - 1) : ℕ) : ℤ)).toNat =
            t - s * (n - 1) := by omega
        rw [htoNat, range_filter_ne_getD n col (t - s * (n - 1)) hcol hc0]
        have ht_eq : t = s * (n - 1) + (t - s * (n - 1)) := by omega
        conv_rhs => rw [ht_eq]
        rw [get_minor_getD m 0 col n s (t - s * (n - 1)) (by omega) hcol
          (by omega) hc0]
        rw [show (if s < 0 then s else s + 1) = s + 1 from
          if_neg (Nat.not_lt_zero s)]
      · rw [if_neg (by omega)]
        rw [hb1, if_neg (by
          intro hcon
          exact hhead ⟨by omega, by omega⟩)]

theorem minorWStep_length (m : List F) (col n : ℕ) (st : ℤ × List F)
    (i : ℕ) : ((minorWStep m col n st i).2).length = st.2.length := by
  unfold minorWStep
  exact write_fold_length m n i _ _ _ _

theorem foldl_minorWStep_length (m : List F) (col n : ℕ) :
    ∀ (l : List ℕ) (st : ℤ × List F),
      ((l.foldl (minorWStep m col n) st).2).length = st.2.length := by
  intro l
  induction l with
  | nil => intro st; rfl
  | cons i l ih =>
    intro st
    rw [List.foldl_cons, ih]
    exact minorWStep_length m col n st i

theorem get_minor_w_zero_length (m : List F) (col n : ℕ) (b : List F) :
    (get_minor_w m 0 col n b).length = b.length := by
  rw [get_minor_w_zero_eq_foldl]
  exact foldl_minorWStep_length m col n _ _

/-- With excluded row 0 — the only way the engine's determinant uses the
witnessed-index path — every read of the witnessed-path minor agrees with
the constant-index minor, provided the zero buffer covers the (n−1)²
minor slots. -/
theorem get_minor_w_zero_getD (m : List F) (col n L : ℕ) (hcol : col < n)
    (hL : (n - 1) * (n - 1) ≤ L) (t : ℕ) :
    (get_minor_w m 0 col n (List.replicate L 0)).getD t 0 =
      (get_minor m 0 col n).getD t 0 := by
  rw [get_minor_w_zero_eq_foldl]
  obtain ⟨k, rfl⟩ : ∃ k, n = k + 1 := ⟨n - 1, by omega⟩
  rw [List.range_succ_eq_map, List.foldl_cons,
    minorWStep_zero m col (k + 1) hcol]
  have hmap : (List.range k).map Nat.succ =
      (List.range k).map (fun x => x + 0 + 1) := by
    apply List.map_congr_left
    intro a _
    omega
  rw [hmap, show ((-1 : ℤ)) = ((0 : ℕ) : ℤ) - 1 from by norm_num]
  rw [outer_fold_spec m col (k + 1) hcol k 0 _ (by omega)
    (by simpa using hL) t]
  have hzk : (0 + k) * (k + 1 - 1) = k * k := by simp
  by_cases h : t < k * k
  · rw [if_pos ⟨by omega, by omega⟩]
  · rw [if_neg (by omega)]
    have hmlen : (get_minor m 0 col (k + 1)).length = k * k := by
      have := get_minor_length m 0 col (k + 1) (by omega) hcol
      simpa using this
    have hminor : (get_minor m 0 col (k + 1)).getD t 0 = 0 :=
      List.getD_eq_default _ _ (by omega)
    rw [hminor]
    by_cases hLt : t < L
    · rw [List.getD_eq_getElem _ _ (by simpa using hLt)]
      simp
    · rw [List.getD_eq_default _ _ (by simpa using Nat.le_of_not_lt hLt)]

theorem get_minor_congr (m1 m2 : List F)
    (h : ∀ t, m1.getD t 0 = m2.getD t 0) (row col n : ℕ) :
    get_minor m1 row col n = get_minor m2 row col n := by
  unfold get_minor
  congr 1
  funext i
  apply List.map_congr_left
  intro j _
  exact h _

theorem determinant_congr (n : ℕ) (m1 m2 : List F)
    (h : ∀ t, m1.getD t 0 = m2.getD t 0) :
    determinant n m1 = determinant n m2 := by
  match n with
  | 0 => rfl
  | 1 => exact h 0
  | 2 =>
    show m1.getD 0 0 * m1.getD 3 0 - m1.getD 1 0 * m1.getD 2 0 = _
    rw [h 0, h 1, h 2, h 3]
    rfl
  | n + 3 =>
    show (∑ i ∈ Finset.range (n + 3), (-1 : F) ^ i * m1.getD i 0 *
        determinant (n + 2) (get_minor m1 0 i (n + 3))) = _
    apply Finset.sum_congr rfl
    intro i _
    rw [h i, get_minor_congr m1 m2 h 0 i (n + 3)]

/-- The draft switch-select determinant computes the same value as the
primary recursive determinant on every value array long enough to hold
the minors (in particular on every square n×n array). -/
theorem determinant_sw_eq : ∀ (n : ℕ) (m : List F),
    (n - 1) * (n - 1) ≤ m.length → determinant_sw n m = determinant n m := by
  intro n
  induction n using Nat.strong_induction_on with
  | _ n ih =>
    intro m hm
    match n with
    | 0 => rfl
    | 1 => rfl
    | 2 => rfl
    | k + 3 =>
      have hunfold : determinant_sw (k + 3) m =
          ∑ i ∈ Finset.range (k + 3), (-1 : F) ^ i * m.getD i 0 *
            determinant_sw (k + 2) (get_minor_w m 0 i (k + 3)
              (List.replicate m.length 0)) := by
        show (if k + 3 = 2 then
            m.getD 0 0 * m.getD 3 0 - m.getD 1 0 * m.getD 2 0
          else if k + 3 = 1 then m.getD 0 0
          else ∑ i ∈ Finset.range (k + 3), (-1 : F) ^ i * m.getD i 0 *
            determinant_sw (k + 2) (get_minor_w m 0 i (k + 3)
              (List.replicate m.length 0))) =
          ∑ i ∈ Finset.range (k + 3), (-1 : F) ^ i * m.getD i 0 *
            determinant_sw (k + 2) (get_minor_w m 0 i (k + 3)
              (List.replicate m.length 0))
        rw [if_neg (by omega), if_neg (by omega)]
      rw [hunfold]
      show _ = ∑ i ∈ Finset.range (k + 3), (-1 : F) ^ i * m.getD i 0 *
        determinant (k + 2) (get_minor m 0 i (k + 3))
      apply Finset.sum_congr rfl
      intro i hi
      congr 1
      have hsub : (k + 2) * (k + 2) ≤ m.length := by
        have : (k + 3 - 1) * (k + 3 - 1) ≤ m.length := hm
        simpa using this
      rw [ih (k + 2) (by omega) _ (by
        rw [get_minor_w_zero_length]
        rw [List.length_replicate]
        calc (k + 2 - 1) * (k + 2 - 1) ≤ (k + 2) * (k + 2) :=
              Nat.mul_le_mul (by omega) (by omega)
          _ ≤ m.length := hsub)]
      exact determinant_congr (k + 2) _ _ (fun t =>
        get_minor_w_zero_getD m i (k + 3) m.length
          (Finset.mem_range.mp hi) (by simpa using hsub) t)


/-! ## Entry characterizations shared by several claims -/

theorem mul_getD (m1 m2 : List F) (M N P i j : ℕ) (hi : i < M) (hj : j < P) :
    (mul m1 m2 (M, N) (N, P)).getD (i * P + j) 0 =
      ∑ k ∈ Finset.range N, m1.getD (i * N + k) 0 * m2.getD (k * P + j) 0 := by
  unfold mul
  rw [getD_map_range, if_pos (idx_lt M P i j hi hj)]
  rw [idx_div P i j hj, idx_mod P i j hj]

theorem mul_length (m1 m2 : List F) (s1 s2 : ℕ × ℕ) :
    (mul m1 m2 s1 s2).length = s1.1 * s2.2 := by
  simp [mul]

/-! ## Claims -/

/-- Claim C2: `determinant` returns the sole element for `n = 1`, the
row-major closed form `a·d − b·c` for `n = 2`, and for `n > 2` the
first-row cofactor expansion `Σ_i (−1)^i · A[0,i] · det(minor(A, 0, i))`
with the sign alternating starting at `+1`; the draft switch-select
variant computes the same value on every square value array. -/
theorem determinant_cases (n : ℕ) (m : List F) (hn : 2 < n) :
    determinant 1 m = m.getD 0 0 ∧
    determinant 2 m =
      m.getD 0 0 * m.getD 3 0 - m.getD 1 0 * m.getD 2 0 ∧
    determinant n m = (∑ i ∈ Finset.range n,
      (-1 : F) ^ i * m.getD i 0 *
        determinant (n - 1) (get_minor m 0 i n)) ∧
    (m.length = n * n → determinant_sw n m = determinant n m) := by
  refine ⟨rfl, rfl, ?_, fun hlen => determinant_sw_eq n m (by
    rw [hlen]
    exact Nat.mul_le_mul (by omega) (by omega))⟩
  obtain ⟨k, rfl⟩ : ∃ k, n = k + 3 := ⟨n - 3, by omega⟩
  rfl

/-- Claim C2 witness: the cofactor-expansion case and the agreement of
the switch-select variant, evaluated at the 3×3 matrix `[1,…,9]`. -/
theorem determinant_cases_witness :
    (determinant 3 ([1,2,3,4,5,6,7,8,9] : List ℚ) =
      ∑ i ∈ Finset.range 3,
        (-1 : ℚ) ^ i * ([1,2,3,4,5,6,7,8,9] : List ℚ).getD i 0 *
          determinant 2 (get_minor [1,2,3,4,5,6,7,8,9] 0 i 3)) ∧
    determinant_sw 3 ([1,2,3,4,5,6,7,8,9] : List ℚ) =
      determinant 3 ([1,2,3,4,5,6,7,8,9] : List ℚ) :=
  ⟨(determinant_cases 3 ([1,2,3,4,5,6,7,8,9] : List ℚ) (by omega)).2.2.1,
    (determinant_cases 3 ([1,2,3,4,5,6,7,8,9] : List ℚ) (by omega)).2.2.2
      rfl⟩

/-- Claim C3: for `A : (M,N)` and `B : (N,P)`, `mul` returns an array of
length `M·P` whose slot `i·P + j` is the dot product
`Σ_k A[i·N+k] · B[k·P+j]`, and the `Matrix.mul` method gives the result
shape `(M, P)`. -/
theorem mul_spec (m1 m2 : List F) (M N P i j : ℕ)
    (hi : i < M) (hj : j < P) :
    (mul m1 m2 (M, N) (N, P)).length = M * P ∧
    (mul m1 m2 (M, N) (N, P)).getD (i * P + j) 0 =
      (∑ k ∈ Finset.range N, m1.getD (i * N + k) 0 * m2.getD (k * P + j) 0) ∧
    (∀ A B : MatrixE F, A.shape = (M, N) → B.shape = (N, P) →
      ((A.mulM B).1).shape = (M, P)) := by
  refine ⟨mul_length m1 m2 (M, N) (N, P), mul_getD m1 m2 M N P i j hi hj,
    fun A B hA hB => ?_⟩
  simp [MatrixE.mulM, hA, hB]

/-- Claim C3 witness: the concrete case
`[1,2,3,4,5,6] : (2,3)` times `[7,8,9,10,11,12] : (3,2)` equals
`[58,64,139,154]` of shape `(2,2)`. -/
theorem mul_spec_witness :
    (mul ([1,2,3,4,5,6] : List ℚ) [7,8,9,10,11,12] (2, 3) (3, 2)) =
      [58,64,139,154] ∧
    (mul ([1,2,3,4,5,6] : List ℚ) [7,8,9,10,11,12] (2, 3) (3, 2)).getD
        (1 * 2 + 1) 0 =
      ∑ k ∈ Finset.range 3, ([1,2,3,4,5,6] : List ℚ).getD (1 * 3 + k) 0 *
        ([7,8,9,10,11,12] : List ℚ).getD (k * 2 + 1) 0 ∧
    ((⟨[1,2,3,4,5,6], (2, 3), 0, 1⟩ : MatrixE ℚ).mulM
      ⟨[7,8,9,10,11,12], (3, 2), 0, 1⟩).1.shape = (2, 2) :=
  ⟨by norm_num [mul, Finset.sum_range_succ, List.range_succ],
    (mul_spec ([1,2,3,4,5,6] : List ℚ) [7,8,9,10,11,12] 2 3 2 1 1
      (by omega) (by omega)).2.1,
    (mul_spec ([1,2,3,4,5,6] : List ℚ) [7,8,9,10,11,12] 2 3 2 1 1
      (by omega) (by omega)).2.2 _ _ rfl rfl⟩

/-- Claim C6 counterexample: the draft-variant constructor succeeds on an
empty value array declared to have 9 values and shape (3,3) — it never
fails, contradicting the claim that construction fails whenever the
value count does not match. -/
theorem construction_counterexample :
    (Matrix2.mk? ([] : List ℚ) 9 (3, 3) 0 1).isSome = true := rfl

omit [Field F] in
/-- Claim C6 (amended): the primary constructor fails — at construction
time, as a host-language error — exactly when the value count differs
from `rows × cols`; the draft-variant (`values_len`) constructor never
fails, because the equality test it performs on the length is
discarded. -/
theorem construction_check (v : List F) (shape : ℕ × ℕ) (z s : F)
    (exp_len : ℕ) :
    ((MatrixE.mk? v shape z s).isSome ↔ v.length = shape.1 * shape.2) ∧
    (Matrix2.mk? v exp_len shape z s).isSome = true := by
  constructor
  · unfold MatrixE.mk?
    split <;> simp [*]
  · rfl

/-- Claim C7: the plain binary operations `add`, `sub` and
`hadamard_product` are accepted exactly when the operands' shapes,
zero-points and scales match and the right-hand operand carries neutral
quantization; the result value array is computed unconditionally (a
violation surfaces as an unsatisfiable constraint, not as a runtime
branch skipping the computation). -/
theorem binary_op_constraints (A B : MatrixE F) :
    ((A.addM B).2 ↔ (A.shape = B.shape ∧ A.zero_point = B.zero_point ∧
      A.scale = B.scale ∧ B.zero_point = 0 ∧ B.scale = 1)) ∧
    ((A.subM B).2 ↔ (A.shape = B.shape ∧ A.zero_point = B.zero_point ∧
      A.scale = B.scale ∧ B.zero_point = 0 ∧ B.scale = 1)) ∧
    ((A.hadamardM B).2 ↔ (A.shape = B.shape ∧ A.zero_point = B.zero_point ∧
      A.scale = B.scale ∧ B.zero_point = 0 ∧ B.scale = 1)) ∧
    ((A.addM B).1).values = add A.values B.values ∧
    ((A.subM B).1).values = sub A.values B.values ∧
    ((A.hadamardM B).1).values = hadamard_product A.values B.values := by
  have hsh : A.shape = B.shape ↔
      (A.shape.1 = B.shape.1 ∧ A.shape.2 = B.shape.2) := Prod.ext_iff
  refine ⟨?_, ?_, ?_, rfl, rfl, rfl⟩ <;>
    · simp only [MatrixE.addM, MatrixE.subM, MatrixE.hadamardM,
        constr_matrix_config, hsh]
      tauto

/-- Claim C8: `scalar_div` emits exactly the non-equality constraint
`s ≠ 0` (so a zero divisor makes the constraint set unsatisfiable), and
`inverse` emits exactly the non-equality constraint `det ≠ 0` (so a
singular matrix makes it unsatisfiable); in both cases the value array is
still computed — there is no fallback branch. -/
theorem division_constraints (m : List F) (s : F) (n : ℕ) :
    ((scalar_div m s).2 ↔ s ≠ 0) ∧
    ((scalar_div m (0 : F)).2 = False) ∧
    ((inverse n m).2 ↔ determinant n m ≠ 0) ∧
    (scalar_div m s).1 = m.map (fun v => v / s) ∧
    (inverse n m).1 = (List.range (n * n)).map
      (fun t => (adjoint n m).getD t 0 / determinant n m) := by
  refine ⟨Iff.rfl, ?_, Iff.rfl, rfl, rfl⟩
  simp [scalar_div]

/-- Claim C10: each of the plain methods `determinant`, `adjoint`,
`inverse`, `scalar_mul` and `scalar_div` asserts that the receiver
carries neutral quantization, so on a receiver whose zero-point is not 0
or whose scale is not 1 the emitted constraint set is unsatisfiable. -/
theorem plain_method_preconditions (A : MatrixE F) (s : F)
    (h : ¬ (A.zero_point = 0 ∧ A.scale = 1)) :
    ¬ (A.determinantM).2 ∧ ¬ (A.adjointM).2 ∧ ¬ (A.inverseM).2 ∧
    ¬ (A.scalar_mulM s).2 ∧ ¬ (A.scalar_divM s).2 := by
  refine ⟨fun hp => h ⟨hp.1, hp.2.1⟩, fun hp => h ⟨hp.1, hp.2.1⟩,
    fun hp => h ⟨hp.1, hp.2.1⟩, fun hp => h ⟨hp.1, hp.2⟩,
    fun hp => h ⟨hp.1, hp.2.1⟩⟩

/-- Claim C10 witness: on a 1×1 matrix with zero-point 1 every plain
method's constraint set is unsatisfiable. -/
theorem plain_method_preconditions_witness :
    ¬ ((⟨[2], (1, 1), 1, 1⟩ : MatrixE ℚ).determinantM).2 :=
  (plain_method_preconditions (⟨[2], (1, 1), 1, 1⟩ : MatrixE ℚ) 0
    (by norm_num)).1

/-- Claim C1 (amended): for every square matrix of dimension at least 2
with plain quantization (zero-point 0, scale 1) and non-zero determinant,
`mul(A, inverse(A))` is the identity matrix of the same shape — diagonal
entries the multiplicative identity, off-diagonal the additive identity —
and every constraint emitted by the multiplication is satisfied. -/
theorem mul_inverse_round_trip (n : ℕ) (A : MatrixE F) (hn : 2 ≤ n)
    (hsh : A.shape = (n, n)) (hz : A.zero_point = 0) (hs : A.scale = 1)
    (hdet : determinant n A.values ≠ 0) :
    ((A.mulM (A.inverseM).1).1).values = idList n ∧
    ((A.mulM (A.inverseM).1).1).shape = (n, n) ∧
    (A.mulM (A.inverseM).1).2 := by
  obtain ⟨k, rfl⟩ : ∃ k, n = k + 2 := ⟨n - 2, by omega⟩
  refine ⟨?_, ?_, ?_⟩
  · show mul A.values (inverse A.shape.1 A.values).1 A.shape A.shape =
      idList (k + 2)
    rw [hsh]
    exact mul_inverse_eq_idList k A.values hdet
  · show (A.shape.1, A.shape.2) = (k + 2, k + 2)
    rw [hsh]
  · refine ⟨hz, hs, rfl, rfl, ?_⟩
    show A.shape.2 = A.shape.1
    rw [hsh]

/-- Claim C1 witness: the spec's example matrix [[0,2,3],[4,5,6],[7,8,9]]
(determinant 3) round-trips to the 3×3 identity. -/
theorem mul_inverse_round_trip_witness :
    (((⟨[0,2,3,4,5,6,7,8,9], (3, 3), 0, 1⟩ : MatrixE ℚ).mulM
      ((⟨[0,2,3,4,5,6,7,8,9], (3, 3), 0, 1⟩ : MatrixE ℚ).inverseM).1).1).values
      = idList 3 :=
  (mul_inverse_round_trip 3 ⟨[0,2,3,4,5,6,7,8,9], (3, 3), 0, 1⟩
    (by omega) rfl rfl rfl
    (by norm_num [determinant, get_minor, Finset.sum_range_succ,
      List.range_succ])).1

/-- Claim C1 counterexample: the 1×1 matrix [5] has determinant 5 ≠ 0,
yet the engine computes `inverse([5]) = [0]` (its 0×0 minor determinant
is the empty cofactor sum 0, not 1), so `mul(A, inverse(A)) = [0]`,
which is not the 1×1 identity. -/
theorem mul_inverse_round_trip_counterexample :
    determinant 1 ([5] : List ℚ) ≠ 0 ∧
    (((⟨[5], (1, 1), 0, 1⟩ : MatrixE ℚ).mulM
      ((⟨[5], (1, 1), 0, 1⟩ : MatrixE ℚ).inverseM).1).1).values ≠
      idList 1 := by
  constructor
  · norm_num [determinant]
  · norm_num [MatrixE.mulM, MatrixE.inverseM, mul, inverse, adjoint,
      transpose, determinant, get_minor, idList, Finset.sum_range_succ,
      List.range_succ]

/-- Claim C9: for `A : (M,N)` and `B : (N,P)` (value arrays of matching
length), `transpose(mul(A,B))` equals `mul(transpose(B), transpose(A))`. -/
theorem transpose_mul (m1 m2 : List F) (M N P : ℕ)
    (h1 : m1.length = M * N) (h2 : m2.length = N * P) :
    transpose (mul m1 m2 (M, N) (N, P)) (M, P) =
      mul (transpose m2 (N, P)) (transpose m1 (M, N)) (P, N) (N, M) := by
  apply List.ext_getElem
  · rw [show (transpose (mul m1 m2 (M, N) (N, P)) (M, P)).length =
        (mul m1 m2 (M, N) (N, P)).length from by simp [transpose]]
    rw [mul_length, mul_length]
    ring
  intro t ht1 ht2
  have ht : t < M * P := by
    rw [show (transpose (mul m1 m2 (M, N) (N, P)) (M, P)).length =
        (mul m1 m2 (M, N) (N, P)).length from by simp [transpose],
      mul_length] at ht1
    exact ht1
  have hM : 0 < M := by
    rcases Nat.eq_zero_or_pos M with h | h
    · subst h; omega
    · exact h
  have hdiv : t / M < P := Nat.div_lt_of_lt_mul ht
  have hmod : t % M < M := Nat.mod_lt _ hM
  rw [← List.getD_eq_getElem _ 0 ht1, ← List.getD_eq_getElem _ 0 ht2]
  conv_rhs => rw [show t = t / M * M + t % M from by
    rw [Nat.mul_comm]; exact (Nat.div_add_mod t M).symm]
  rw [mul_getD _ _ P N M (t / M) (t % M) hdiv hmod]
  rw [transpose_getD _ M P t (by rw [mul_length]) ht]
  rw [mul_getD m1 m2 M N P (t % M) (t / M) hmod hdiv]
  apply Finset.sum_congr rfl
  intro k hk
  have hkN : k < N := Finset.mem_range.mp hk
  rw [transpose_getD m2 N P (t / M * N + k) h2
    (by rw [Nat.mul_comm N P]; exact idx_lt P N (t / M) k hdiv hkN)]
  rw [idx_mod N (t / M) k hkN, idx_div N (t / M) k hkN]
  rw [transpose_getD m1 M N (k * M + t % M) h1
    (by rw [Nat.mul_comm M N]; exact idx_lt N M k (t % M) hkN hmod)]
  rw [idx_mod M k (t % M) hmod, idx_div M k (t % M) hmod]
  ring

/-- Claim C9 witness: the identity at the concrete pair
`[1..6] : (2,3)` and `[7..12] : (3,2)`. -/
theorem transpose_mul_witness :
    transpose (mul ([1,2,3,4,5,6] : List ℚ) [7,8,9,10,11,12] (2, 3) (3, 2))
        (2, 2) =
      mul (transpose ([7,8,9,10,11,12] : List ℚ) (3, 2))
        (transpose ([1,2,3,4,5,6] : List ℚ) (2, 3)) (2, 3) (3, 2) :=
  transpose_mul [1,2,3,4,5,6] [7,8,9,10,11,12] 2 3 2 rfl rfl

/-- Claim C4: at `s_x = 1`, `s_y = 2` the comparison says the x-scale is
not greater, so the claimed multiplier `2·min(s_x, s_y)` is 2 — but the
code's multiplier is `2·s_y = 4` for every comparator, because the o1js
`Bool` returned by `greaterThan` is an object and objects are truthy in a
JavaScript `if`.  The returned field value is nevertheless the correctly
dequantized sum — the multiplier cancels algebraically (last conjunct,
with all zero-points 0, `s_x = s_out = 1`, `s_y = 2`). -/
theorem add_quant_multiplier_bug :
    ∀ fgt : ℚ → ℚ → Bool,
      add_quant_multiplier fgt (1 : ℚ) 2 = 4 ∧
      2 * min (1 : ℚ) 2 = 2 ∧
      add_quant_multiplier fgt (1 : ℚ) 2 ≠ 2 * min (1 : ℚ) 2 ∧
      ∀ q_x q_y : ℚ, add_quant fgt q_x 0 1 q_y 0 2 0 1 = q_x + q_y / 2 := by
  intro fgt
  refine ⟨?_, by norm_num, ?_, fun q_x q_y => ?_⟩
  · norm_num [add_quant_multiplier, jsTruthy]
  · norm_num [add_quant_multiplier, jsTruthy]
  · show add_quant_multiplier fgt 1 2 * 1 *
      (1 / 1 / add_quant_multiplier fgt 1 2 * (q_x - 0) +
        1 / 2 / add_quant_multiplier fgt 1 2 * (q_y - 0)) + 0 = q_x + q_y / 2
    norm_num [add_quant_multiplier, jsTruthy]
    ring

/-- Claim C5: at the 3×3 matrix [1,…,9] with excluded row 1 and excluded
column 0 the constant-index path returns the true minor [[2,3],[8,9]],
but the witnessed-index path — whose cell write is not gated on
`i ≠ excluded_row` — overwrites minor row 0 with the excluded row's
entries and yields [[5,6],[8,9]] in the first (n−1)² slots of its
buffer. -/
theorem minor_paths_diverge :
    get_minor ([1,2,3,4,5,6,7,8,9] : List ℚ) 1 0 3 = [2,3,8,9] ∧
    (get_minor_w ([1,2,3,4,5,6,7,8,9] : List ℚ) 1 0 3
      (List.replicate 9 0)).take 4 = [5,6,8,9] ∧
    ([5,6,8,9] : List ℚ) ≠ [2,3,8,9] := by
  exact ⟨by decide, by decide, by decide⟩

end MatrixOps
